import Mathlib

set_option linter.unusedVariables false

/-!
Shallow embedding of the Smart DCA core (`smart_dca_m.py`): the price lookup
`fetch_price`, the momentum scoring loop and the rotation selection logic of
`run_dca`.  Python dicts are modelled as insertion-ordered association lists,
dates as integers (day numbers), prices and scores as rationals, and raised
exceptions as `Except` errors.  The market-data collaborator (`yf.download`)
is modelled as a function from ticker to its date-ascending price history.
-/

namespace SmartDCA

/-- The failure modes of the embedded core.  Each constructor corresponds to a
distinct raising site in the source: `priceUnavailable` to the `iloc[-1]`
failure in `fetch_price` when no row is on or before the requested date,
`noCandidates` to the `sorted_raw[0]` index error on an empty score map, and
`keyError` to a dict subscript on a missing key (`rot[cand] += 1`,
`prices[cand]`). -/
inductive Err where
  | noCandidates : Err
  | keyError : String → Err
  | priceUnavailable : String → ℤ → Err
deriving DecidableEq, Repr

/-- The record returned by `run_dca` (source line 99):
`{"Buy Ticker", "Price", "Shares", "Cost", "New Rotation"}`. -/
structure BuyDecision where
  buyTicker : String
  price : ℚ
  shares : ℚ
  cost : ℚ
  newRotation : List (String × Nat)
deriving DecidableEq, Repr

instance instDecEqExcept {ε α : Type} [DecidableEq ε] [DecidableEq α] :
    DecidableEq (Except ε α) := fun x y =>
  match x, y with
  | Except.ok a, Except.ok b =>
      if h : a = b then isTrue (by rw [h])
      else isFalse (by intro he; cases he; exact h rfl)
  | Except.ok _, Except.error _ => isFalse (by intro h; cases h)
  | Except.error _, Except.ok _ => isFalse (by intro h; cases h)
  | Except.error e, Except.error f =>
      if h : e = f then isTrue (by rw [h])
      else isFalse (by intro he; cases he; exact h rfl)

/-- Python dict lookup on an association list: the value of the first pair
with the given key, if any. -/
def alookup {α : Type} (k : String) : List (String × α) → Option α
  | [] => none
  | kv :: rest => if kv.1 = k then some kv.2 else alookup k rest

/-- The market-data collaborator: each ticker's price history as a list of
(date, price) pairs, in ascending date order. -/
abbrev Market : Type := String → List (ℤ × ℚ)

/-- The rows of a price history that `fetch_price` can see for a request at
`date`: the slice downloaded from `date - 200 days` to `date` inclusive
(source line 41-43), further restricted to rows at or before `date` by
`.loc[:date]` (source line 45). -/
def priceWindow (hist : List (ℤ × ℚ)) (date : ℤ) : List (ℤ × ℚ) :=
  hist.filter (fun e => decide (date - 200 ≤ e.1) && decide (e.1 ≤ date))

/-- Embeds `fetch_price(t, date)` (source lines 40-45): download the window from
`date - 200 days` to `date` inclusive, keep the rows up to `date`, and take
the last one (`iloc[-1]`); fail if the window is empty. -/
def fetch_price (market : Market) (t : String) (date : ℤ) : Except Err ℚ :=
  match (priceWindow (market t) date).getLast? with
  | some e => Except.ok e.2
  | none => Except.error (Err.priceUnavailable t date)

/-- The momentum formula of source lines 78-79:
`r1, r3, r6 = p0/p1-1, p0/p3-1, p0/p6-1; 0.2*r1 + 0.3*r3 + 0.5*r6`. -/
def scoreFormula (p0 p1 p3 p6 : ℚ) : ℚ :=
  let r1 := p0 / p1 - 1
  let r3 := p0 / p3 - 1
  let r6 := p0 / p6 - 1
  0.2 * r1 + 0.3 * r3 + 0.5 * r6

/-- The per-ticker scoring body of the loop at source lines 73-79: four price
lookups (`p0` at the cutoff, then 30, 90 and 180 days back) composed with the
momentum formula; any lookup failure propagates. -/
def scoreOf (market : Market) (t : String) (cd : ℤ) : Except Err ℚ := do
  let p0 ← fetch_price market t cd
  let p1 ← fetch_price market t (cd - 30)
  let p3 ← fetch_price market t (cd - 90)
  let p6 ← fetch_price market t (cd - 180)
  pure (scoreFormula p0 p1 p3 p6)

/-- Embeds `sorted(raw.items(), key=lambda x: x[1], reverse=True)` (source line 82):
a stable sort by score descending.  Python's `sorted` is stable; so is
`List.insertionSort`, hence they agree extensionally. -/
def sortedScores (raw : List (String × ℚ)) : List (String × ℚ) :=
  raw.insertionSort (fun a b => b.2 ≤ a.2)

/-- The loop guard `rot.get(t,0) < 3` of source line 84. -/
def eligible (rot : List (String × Nat)) (x : String × ℚ) : Bool :=
  decide ((alookup x.1 rot).getD 0 < 3)

/-- The `for t,_ in sorted_raw: ... break / else: ...` of source lines 83-89:
scan the sorted list for the first ticker with rotation count < 3; if none
breaks out, take `sorted_raw[0][0]` (an index error on an empty list) and
reset every rotation entry to 0.  Returns the candidate together with the
rotation dict as it stands after this stage. -/
def pickCand (raw : List (String × ℚ)) (rot : List (String × Nat)) :
    Except Err (String × List (String × Nat)) :=
  match (sortedScores raw).find? (eligible rot) with
  | some x => Except.ok (x.1, rot)
  | none =>
    match sortedScores raw with
    | [] => Except.error Err.noCandidates
    | x :: _ => Except.ok (x.1, rot.map (fun kv => (kv.1, 0)))

/-- Dict assignment `l[k] = v` when `k` is already a key: rewrite every pair
with key `k` (a Python dict has it at most once). -/
def setKey (l : List (String × Nat)) (k : String) (v : Nat) : List (String × Nat) :=
  l.map (fun kv => if kv.1 = k then (k, v) else kv)

/-- The loop of source lines 92-93: `for k in rot: if k != cand: rot[k] = 0`. -/
def zeroOthers (l : List (String × Nat)) (cand : String) : List (String × Nat) :=
  l.map (fun kv => if kv.1 = cand then kv else (kv.1, 0))

/-- Source lines 91-93: `rot[cand] += 1` (a KeyError when `cand` is not a key
of `rot`) followed by zeroing every other entry. -/
def bumpCand (rot : List (String × Nat)) (cand : String) :
    Except Err (List (String × Nat)) :=
  match alookup cand rot with
  | none => Except.error (Err.keyError cand)
  | some c => Except.ok (zeroOthers (setKey rot cand (c + 1)) cand)

/-- The rotation-state update of source lines 81-93: start from a copy of the
caller's counts, pick the candidate, then increment it and zero the rest. -/
def rotAfter (raw : List (String × ℚ)) (counts : List (String × Nat)) :
    Except Err (String × List (String × Nat)) := do
  let cr ← pickCand raw counts
  let rot2 ← bumpCand cr.2 cr.1
  pure (cr.1, rot2)

/-- Dict subscript `prices[k]`: a KeyError when absent. -/
def dictGetQ (prices : List (String × ℚ)) (k : String) : Except Err ℚ :=
  match alookup k prices with
  | none => Except.error (Err.keyError k)
  | some p => Except.ok p

/-- Source line 96: `shares = np.floor(amt/price*1000)/1000`. -/
def sharesOf (amt price : ℚ) : ℚ := ((⌊amt / price * 1000⌋ : ℤ) : ℚ) / 1000

/-- The selection stage of `run_dca` (source lines 81-99), as a function of
the score map `raw`, the caller's rotation counts, the price dict and the
investable amount: update the rotation state, look up the candidate's price,
truncate the share quantity and return the decision record. -/
def selectPhase (raw : List (String × ℚ)) (counts : List (String × Nat))
    (prices : List (String × ℚ)) (amt : ℚ) : Except Err BuyDecision := do
  let cr ← rotAfter raw counts
  let price ← dictGetQ prices cr.1
  let shares := sharesOf amt price
  pure ⟨cr.1, price, shares, shares * price, cr.2⟩

/-- Source line 71: the dict comprehension fetching each ticker's price at
the cutoff date. -/
def buildPrices (market : Market) (tks : List String) (cd : ℤ) :
    Except Err (List (String × ℚ)) :=
  tks.mapM (fun t => do
    let p ← fetch_price market t cd
    pure (t, p))

set_option linter.unusedVariables false in
/-- Embeds `run_dca(tks, counts, cd, bd, amt)` (source lines 70-99).  `bd` is taken
but, exactly as in the source, never used by the decision logic. -/
def run_dca (market : Market) (tks : List String) (counts : List (String × Nat))
    (cd : ℤ) (bd : ℤ) (amt : ℚ) : Except Err BuyDecision := do
  let prices ← buildPrices market tks cd
  let raw ← tks.mapM (fun t => do
    let p0 ← dictGetQ prices t
    let p1 ← fetch_price market t (cd - 30)
    let p3 ← fetch_price market t (cd - 90)
    let p6 ← fetch_price market t (cd - 180)
    pure (t, scoreFormula p0 p1 p3 p6))
  selectPhase raw counts prices amt

/-!  General lemmas about the dictionary and sorting primitives.  -/

theorem alookup_cons {α : Type} (k : String) (kv : String × α) (l : List (String × α)) :
    alookup k (kv :: l) = if kv.1 = k then some kv.2 else alookup k l := rfl

theorem alookup_map_zero (k : String) (l : List (String × Nat)) :
    alookup k (l.map fun kv => (kv.1, 0)) = (alookup k l).map fun _ => 0 := by
  induction l with
  | nil => rfl
  | cons kv rest ih => by_cases h : kv.1 = k <;> simp [alookup, h, ih]

theorem alookup_zeroOthers (k cand : String) (l : List (String × Nat)) :
    alookup k (zeroOthers l cand)
      = if k = cand then alookup k l else (alookup k l).map fun _ => 0 := by
  induction l with
  | nil => simp [zeroOthers, alookup]
  | cons kv rest ih =>
    by_cases hkc : k = cand <;> by_cases h2 : kv.1 = cand <;> by_cases h : kv.1 = k <;>
      simp_all [zeroOthers, alookup_cons]

theorem alookup_setKey (k key : String) (v : Nat) (l : List (String × Nat)) :
    alookup k (setKey l key v)
      = if k = key then (alookup k l).map (fun _ => v) else alookup k l := by
  induction l with
  | nil => simp [setKey, alookup]
  | cons kv rest ih =>
    by_cases hkk : k = key <;> by_cases h2 : kv.1 = key <;> by_cases h : kv.1 = k <;>
      simp_all [setKey, alookup_cons]

theorem mem_zeroOthers {kv : String × Nat} {l : List (String × Nat)} {cand : String}
    (h : kv ∈ zeroOthers l cand) : kv.2 = 0 ∨ (kv.1 = cand ∧ kv ∈ l) := by
  simp only [zeroOthers, List.mem_map] at h
  obtain ⟨a, ha, hf⟩ := h
  by_cases hc : a.1 = cand
  · rw [if_pos hc] at hf
    exact Or.inr ⟨hf ▸ hc, hf ▸ ha⟩
  · rw [if_neg hc] at hf
    exact Or.inl (by rw [← hf])

theorem mem_setKey {kv : String × Nat} {l : List (String × Nat)} {key : String} {v : Nat}
    (h : kv ∈ setKey l key v) : kv = (key, v) ∨ (kv.1 ≠ key ∧ kv ∈ l) := by
  simp only [setKey, List.mem_map] at h
  obtain ⟨a, ha, hf⟩ := h
  by_cases hc : a.1 = key
  · rw [if_pos hc] at hf
    exact Or.inl hf.symm
  · rw [if_neg hc] at hf
    exact Or.inr ⟨hf ▸ hc, hf ▸ ha⟩

theorem sortedScores_perm (raw : List (String × ℚ)) : (sortedScores raw).Perm raw :=
  List.perm_insertionSort _ _

theorem sortedScores_pairwise (raw : List (String × ℚ)) :
    (sortedScores raw).Pairwise (fun a b => b.2 ≤ a.2) := by
  haveI : IsTotal (String × ℚ) (fun a b => b.2 ≤ a.2) := ⟨fun a b => le_total b.2 a.2⟩
  haveI : IsTrans (String × ℚ) (fun a b => b.2 ≤ a.2) := ⟨fun _ _ _ h1 h2 => le_trans h2 h1⟩
  exact List.sorted_insertionSort _ raw

theorem sortedScores_eq_nil_iff (raw : List (String × ℚ)) :
    sortedScores raw = [] ↔ raw = [] := by
  constructor
  · intro h
    have hp := sortedScores_perm raw
    rw [h] at hp
    exact hp.symm.eq_nil
  · intro h
    subst h
    rfl

theorem mem_sortedScores {raw : List (String × ℚ)} {x : String × ℚ} :
    x ∈ sortedScores raw ↔ x ∈ raw := (sortedScores_perm raw).mem_iff

theorem find?_split {α : Type} (p : α → Bool) (l1 l2 : List α) (x : α)
    (hx : p x = true) (h1 : ∀ y ∈ l1, p y = false) :
    List.find? p (l1 ++ x :: l2) = some x := by
  induction l1 with
  | nil => simp [List.find?_cons, hx]
  | cons a t ih =>
    have ha : p a = false := h1 a (List.mem_cons_self a t)
    simp only [List.cons_append, List.find?_cons, ha]
    exact ih fun y hy => h1 y (List.mem_cons_of_mem a hy)

/-!  Inversion principles for the stages of `selectPhase`.  -/

theorem pickCand_ok_cases {raw : List (String × ℚ)} {rot : List (String × Nat)}
    {cand : String} {rot' : List (String × Nat)}
    (h : pickCand raw rot = Except.ok (cand, rot')) :
    (∃ x, (sortedScores raw).find? (eligible rot) = some x ∧ cand = x.1 ∧ rot' = rot) ∨
    ((sortedScores raw).find? (eligible rot) = none ∧
      ∃ x rest, sortedScores raw = x :: rest ∧ cand = x.1 ∧
        rot' = rot.map fun kv => (kv.1, 0)) := by
  unfold pickCand at h
  cases hf : (sortedScores raw).find? (eligible rot) with
  | some x =>
    rw [hf] at h
    exact Or.inl ⟨x, rfl, by injection h with h'; exact (congrArg Prod.fst h').symm,
      by injection h with h'; exact (congrArg Prod.snd h').symm⟩
  | none =>
    rw [hf] at h
    cases hs : sortedScores raw with
    | nil => rw [hs] at h; exact absurd h (by simp)
    | cons x rest =>
      rw [hs] at h
      refine Or.inr ⟨rfl, x, rest, rfl, ?_, ?_⟩
      · injection h with h'; exact (congrArg Prod.fst h').symm
      · injection h with h'; exact (congrArg Prod.snd h').symm

theorem rotAfter_ok_iff {raw : List (String × ℚ)} {counts : List (String × Nat)}
    {cand : String} {rot2 : List (String × Nat)} :
    rotAfter raw counts = Except.ok (cand, rot2) ↔
    ∃ rot c, pickCand raw counts = Except.ok (cand, rot) ∧
      alookup cand rot = some c ∧
      rot2 = zeroOthers (setKey rot cand (c + 1)) cand := by
  unfold rotAfter bumpCand
  cases h : pickCand raw counts with
  | error e => simp [h, bind, Except.bind]
  | ok cr =>
    obtain ⟨c1, r1⟩ := cr
    cases hl : alookup c1 r1 with
    | none =>
      simp only [h, bind, Except.bind, hl]
      constructor
      · intro hx; exact absurd hx (by simp)
      · rintro ⟨rot, c, hpc, hal, -⟩
        injection hpc with hpc'
        obtain ⟨rfl, rfl⟩ : c1 = cand ∧ r1 = rot :=
          ⟨congrArg Prod.fst hpc', congrArg Prod.snd hpc'⟩
        rw [hl] at hal
        exact absurd hal (by simp)
    | some c =>
      simp only [h, bind, Except.bind, hl, pure, Except.pure]
      constructor
      · intro hx
        injection hx with hx'
        obtain ⟨h1, h2⟩ : c1 = cand ∧ zeroOthers (setKey r1 c1 (c + 1)) c1 = rot2 :=
          ⟨congrArg Prod.fst hx', congrArg Prod.snd hx'⟩
        subst h1
        exact ⟨r1, c, rfl, hl, h2.symm⟩
      · rintro ⟨rot, c', hpc, hal, hrot⟩
        injection hpc with hpc'
        obtain ⟨rfl, rfl⟩ : c1 = cand ∧ r1 = rot :=
          ⟨congrArg Prod.fst hpc', congrArg Prod.snd hpc'⟩
        rw [hl] at hal
        injection hal with hal'
        subst hal'
        rw [hrot]

theorem selectPhase_ok_iff {raw : List (String × ℚ)} {counts : List (String × Nat)}
    {prices : List (String × ℚ)} {amt : ℚ} {d : BuyDecision} :
    selectPhase raw counts prices amt = Except.ok d ↔
    ∃ cand rot2 p, rotAfter raw counts = Except.ok (cand, rot2) ∧
      alookup cand prices = some p ∧
      d = ⟨cand, p, sharesOf amt p, sharesOf amt p * p, rot2⟩ := by
  unfold selectPhase dictGetQ
  cases h : rotAfter raw counts with
  | error e => simp [h, bind, Except.bind]
  | ok cr =>
    obtain ⟨cand, rot2⟩ := cr
    cases hp : alookup cand prices with
    | none =>
      simp only [h, bind, Except.bind, hp]
      constructor
      · intro hx; exact absurd hx (by simp)
      · rintro ⟨cand', rot2', p, hra, hal, -⟩
        injection hra with hra'
        obtain ⟨rfl, rfl⟩ : cand = cand' ∧ rot2 = rot2' :=
          ⟨congrArg Prod.fst hra', congrArg Prod.snd hra'⟩
        rw [hp] at hal
        exact absurd hal (by simp)
    | some p =>
      simp only [h, bind, Except.bind, hp, pure, Except.pure]
      constructor
      · intro hx
        injection hx with hx'
        exact ⟨cand, rot2, p, rfl, hp, hx'.symm⟩
      · rintro ⟨cand', rot2', p', hra, hal, hd⟩
        injection hra with hra'
        obtain ⟨rfl, rfl⟩ : cand = cand' ∧ rot2 = rot2' :=
          ⟨congrArg Prod.fst hra', congrArg Prod.snd hra'⟩
        rw [hp] at hal
        injection hal with hal'
        subst hal'
        rw [hd]

/-!  The claims.  -/

/-- C1: for every non-empty score map, rotation map and positive amount, the
selection stage orders the candidates by momentum score descending (the sorted
list is a permutation of the score map, pairwise descending) and the buy
candidate is the first instrument in that order whose rotation count is
strictly below 3; on the spec's end-to-end scenario (scores A:0.10, B:0.25,
C:-0.05; rotation A:0, B:3, C:1; amount 450; price(A)=100) B is skipped, A is
selected, the new rotation map is A:1, B:0, C:0, shares = 4.5, cost = 450. -/
theorem claim1_first_eligible_selected
    (raw : List (String × ℚ)) (counts : List (String × Nat))
    (prices : List (String × ℚ)) (amt : ℚ)
    (hne : raw ≠ []) (hamt : 0 < amt) :
    ((sortedScores raw).Perm raw ∧
      (sortedScores raw).Pairwise (fun a b => b.2 ≤ a.2)) ∧
    (∀ l1 x l2, sortedScores raw = l1 ++ x :: l2 →
      eligible counts x = true → (∀ y ∈ l1, eligible counts y = false) →
      ∀ d, selectPhase raw counts prices amt = Except.ok d → d.buyTicker = x.1) ∧
    selectPhase [("A", 0.10), ("B", 0.25), ("C", -0.05)]
        [("A", 0), ("B", 3), ("C", 1)] [("A", 100)] 450
      = Except.ok ⟨"A", 100, 4.5, 450, [("A", 1), ("B", 0), ("C", 0)]⟩ := by
  refine ⟨⟨sortedScores_perm raw, sortedScores_pairwise raw⟩, ?_, by with_unfolding_all rfl⟩
  intro l1 x l2 hs hx h1 d hd
  have hfind : (sortedScores raw).find? (eligible counts) = some x := by
    rw [hs]
    exact find?_split _ l1 l2 x hx h1
  obtain ⟨cand, rot2, p, hra, hal, hd'⟩ := selectPhase_ok_iff.mp hd
  obtain ⟨rot, c, hpc, -, -⟩ := rotAfter_ok_iff.mp hra
  rcases pickCand_ok_cases hpc with ⟨x', hf', hc, -⟩ | ⟨hf', -⟩
  · have hxx : x' = x := by
      rw [hfind] at hf'
      injection hf' with he
      exact he.symm
    subst hd'
    exact hc.trans (congrArg Prod.fst hxx)
  · rw [hfind] at hf'
    exact absurd hf' (by simp)

/-- Witness for C1, instantiated at the end-to-end scenario with the sorted
order B, A, C and first eligible element A. -/
theorem claim1_witness :
    BuyDecision.buyTicker ⟨"A", 100, 4.5, 450, [("A", 1), ("B", 0), ("C", 0)]⟩ = "A" := by
  have h := claim1_first_eligible_selected
    [("A", 0.10), ("B", 0.25), ("C", -0.05)] [("A", 0), ("B", 3), ("C", 1)]
    [("A", 100)] 450 (by simp) (by norm_num)
  exact h.2.1 [("B", 0.25)] ("A", 0.10) [("C", -0.05)]
    (by with_unfolding_all rfl) (by with_unfolding_all rfl)
    (by
      intro y hy
      rw [List.mem_singleton] at hy
      subst hy
      with_unfolding_all rfl) _ h.2.2

/-- C2: when every candidate's rotation count is already at least 3, the
selection stage picks the top scorer regardless of the cap and resets every
entry to 0 before incrementing, so the buy candidate ends at count 1 and all
other entries at 0; on the exhaustion scenario (counts A:3, B:3, C:3; scores
A:0.1, B:0.3, C:0.2) the buy is B and the rotation map becomes A:0, B:1, C:0. -/
theorem claim2_exhaustion_reset
    (raw : List (String × ℚ)) (counts : List (String × Nat))
    (prices : List (String × ℚ)) (amt : ℚ) (x : String × ℚ) (rest : List (String × ℚ))
    (hall : ∀ y ∈ raw, 3 ≤ (alookup y.1 counts).getD 0)
    (hsort : sortedScores raw = x :: rest) :
    (∀ y ∈ raw, y.2 ≤ x.2) ∧
    (∀ d, selectPhase raw counts prices amt = Except.ok d →
      d.buyTicker = x.1 ∧ alookup x.1 d.newRotation = some 1 ∧
      ∀ kv ∈ d.newRotation, kv.1 ≠ x.1 → kv.2 = 0) ∧
    selectPhase [("A", 0.1), ("B", 0.3), ("C", 0.2)]
        [("A", 3), ("B", 3), ("C", 3)] [("B", 100)] 450
      = Except.ok ⟨"B", 100, 4.5, 450, [("A", 0), ("B", 1), ("C", 0)]⟩ := by
  refine ⟨?_, ?_, by with_unfolding_all rfl⟩
  · intro y hy
    rw [← mem_sortedScores, hsort] at hy
    rcases List.mem_cons.mp hy with rfl | hy'
    · exact le_refl _
    · have hp := sortedScores_pairwise raw
      rw [hsort] at hp
      exact (List.pairwise_cons.mp hp).1 y hy'
  · intro d hd
    have hfn : (sortedScores raw).find? (eligible counts) = none := by
      rw [List.find?_eq_none]
      intro y hy
      have h3 := hall y (mem_sortedScores.mp hy)
      simp only [eligible, decide_eq_true_eq]
      omega
    obtain ⟨cand, rot2, p, hra, hal, hd'⟩ := selectPhase_ok_iff.mp hd
    obtain ⟨rot, c, hpc, hcl, hrot2⟩ := rotAfter_ok_iff.mp hra
    rcases pickCand_ok_cases hpc with ⟨x', hf', -, -⟩ | ⟨-, x', rest', hsort', hc, hrotz⟩
    · rw [hfn] at hf'
      exact absurd hf' (by simp)
    · have hxx : x' = x := by
        rw [hsort] at hsort'
        injection hsort' with h1 h2
        exact h1.symm
      have hcand : cand = x.1 := hc.trans (congrArg Prod.fst hxx)
      have hc0 : c = 0 := by
        rw [hrotz, alookup_map_zero] at hcl
        cases hac : alookup cand counts with
        | none => rw [hac] at hcl; exact absurd hcl (by simp)
        | some a =>
          rw [hac] at hcl
          simp at hcl
          omega
      have hlook : alookup cand rot2 = some 1 := by
        rw [hrot2, alookup_zeroOthers, if_pos rfl, alookup_setKey, if_pos rfl, hcl]
        simp [hc0]
      subst hd'
      refine ⟨hcand, ?_, ?_⟩
      · show alookup x.1 rot2 = some 1
        rw [← hcand]
        exact hlook
      · intro kv hkv hne
        rcases mem_zeroOthers (hrot2 ▸ hkv) with h0 | ⟨hkc, -⟩
        · exact h0
        · exact absurd (hkc.trans hcand) hne

/-- Witness for C2 at the exhaustion scenario: all three counts start at 3,
the top scorer B is bought and ends at count 1. -/
theorem claim2_witness :
    BuyDecision.buyTicker ⟨"B", 100, 4.5, 450, [("A", 0), ("B", 1), ("C", 0)]⟩ = "B" ∧
    alookup "B" [("A", 0), ("B", 1), ("C", 0)] = some 1 := by
  have h := claim2_exhaustion_reset [("A", 0.1), ("B", 0.3), ("C", 0.2)]
    [("A", 3), ("B", 3), ("C", 3)] [("B", 100)] 450 ("B", 0.3) [("C", 0.2), ("A", 0.1)]
    (by decide) (by with_unfolding_all rfl)
  obtain ⟨h1, h2, h3⟩ := h
  obtain ⟨hb, hl, -⟩ := h2 _ h3
  exact ⟨hb, hl⟩

/-- C4: starting from a rotation map whose counts lie in [0,3] and a non-empty
candidate set, any rotation map produced by the selection stage again has all
counts in [0,3], and at most one instrument carries a nonzero count — the
just-bought one; every other entry is set to 0. -/
theorem claim4_rotation_invariant
    (raw : List (String × ℚ)) (counts : List (String × Nat))
    (prices : List (String × ℚ)) (amt : ℚ) (d : BuyDecision)
    (hin : ∀ kv ∈ counts, kv.2 ≤ 3) (hne : raw ≠ [])
    (hok : selectPhase raw counts prices amt = Except.ok d) :
    (∀ kv ∈ d.newRotation, kv.2 ≤ 3) ∧
    (∀ kv ∈ d.newRotation, kv.2 ≠ 0 → kv.1 = d.buyTicker) ∧
    (∀ kv ∈ d.newRotation, kv.1 ≠ d.buyTicker → kv.2 = 0) := by
  obtain ⟨cand, rot2, p, hra, hal, hd'⟩ := selectPhase_ok_iff.mp hok
  obtain ⟨rot, c, hpc, hcl, hrot2⟩ := rotAfter_ok_iff.mp hra
  have hc3 : c + 1 ≤ 3 := by
    rcases pickCand_ok_cases hpc with ⟨x, hf, hcx, hrr⟩ | ⟨-, x, rest, -, hcx, hrr⟩
    · have he : eligible counts x = true := List.find?_some hf
      rw [eligible, decide_eq_true_eq] at he
      rw [hrr] at hcl
      rw [← hcx] at he
      rw [hcl] at he
      simp at he
      omega
    · rw [hrr, alookup_map_zero] at hcl
      cases hac : alookup cand counts with
      | none => rw [hac] at hcl; exact absurd hcl (by simp)
      | some a => rw [hac] at hcl; simp at hcl; omega
  have hdrot : d.newRotation = rot2 := by rw [hd']
  have hdbuy : d.buyTicker = cand := by rw [hd']
  rw [hdrot, hdbuy]
  refine ⟨?_, ?_, ?_⟩
  · intro kv hkv
    rcases mem_zeroOthers (hrot2 ▸ hkv) with h0 | ⟨hkc, hmem⟩
    · omega
    · rcases mem_setKey hmem with heq | ⟨hne', -⟩
      · rw [heq]
        exact hc3
      · exact absurd hkc hne'
  · intro kv hkv hnz
    rcases mem_zeroOthers (hrot2 ▸ hkv) with h0 | ⟨hkc, -⟩
    · exact absurd h0 hnz
    · exact hkc
  · intro kv hkv hne'
    rcases mem_zeroOthers (hrot2 ▸ hkv) with h0 | ⟨hkc, -⟩
    · exact h0
    · exact absurd hkc hne'

/-- Witness for C4 at the end-to-end scenario: in the returned rotation map
A:1, B:0, C:0 the bought entry is within the cap and B's entry is zero. -/
theorem claim4_witness :
    ((("A" : String), (1 : ℕ)) : String × ℕ).2 ≤ 3 ∧
    ((("B" : String), (0 : ℕ)) : String × ℕ).2 = 0 := by
  have h := claim4_rotation_invariant
    [("A", 0.10), ("B", 0.25), ("C", -0.05)] [("A", 0), ("B", 3), ("C", 1)]
    [("A", 100)] 450 ⟨"A", 100, 4.5, 450, [("A", 1), ("B", 0), ("C", 0)]⟩
    (by decide) (by simp) (by with_unfolding_all rfl)
  exact ⟨h.1 ("A", 1) (by simp), h.2.2 ("B", 0) (by simp) (by simp)⟩

/-- The truncated share quantity never exceeds the exact quotient. -/
theorem sharesOf_le (amt price : ℚ) : sharesOf amt price ≤ amt / price := by
  unfold sharesOf
  have h := Int.floor_le (amt / price * 1000)
  calc ((⌊amt / price * 1000⌋ : ℤ) : ℚ) / 1000 ≤ (amt / price * 1000) / 1000 := by gcongr
    _ = amt / price := by
        rw [mul_div_assoc]
        norm_num

/-- C7: every produced decision has `shares = floor(amt/price*1000)/1000`,
`cost = shares * price` exactly, and the share quantity is never rounded up
(it never exceeds `amt / price`). -/
theorem claim7_share_truncation
    (raw : List (String × ℚ)) (counts : List (String × Nat))
    (prices : List (String × ℚ)) (amt : ℚ) (d : BuyDecision)
    (hok : selectPhase raw counts prices amt = Except.ok d) :
    d.shares = ((⌊amt / d.price * 1000⌋ : ℤ) : ℚ) / 1000 ∧
    d.cost = d.shares * d.price ∧
    d.shares ≤ amt / d.price := by
  obtain ⟨cand, rot2, p, hra, hal, hd'⟩ := selectPhase_ok_iff.mp hok
  have hp : d.price = p := by rw [hd']
  have hs : d.shares = sharesOf amt p := by rw [hd']
  have hc : d.cost = sharesOf amt p * p := by rw [hd']
  refine ⟨?_, ?_, ?_⟩
  · rw [hs, hp]
    rfl
  · rw [hc, hs, hp]
  · rw [hs, hp]
    exact sharesOf_le amt p

/-- Witness for C7 at the spec's truncation example: amount 450 at price
437.2963 yields shares 1.029 (the floored quotient), not 1.030. -/
theorem claim7_witness :
    BuyDecision.shares ⟨"A", 437.2963, 1.029, 1.029 * 437.2963, [("A", 1)]⟩
      = ((⌊(450 : ℚ) / BuyDecision.price ⟨"A", 437.2963, 1.029, 1.029 * 437.2963, [("A", 1)]⟩
            * 1000⌋ : ℤ) : ℚ) / 1000 ∧
    (1.029 : ℚ) ≠ 1.030 := by
  refine ⟨?_, by norm_num⟩
  exact (claim7_share_truncation [("A", 1)] [("A", 0)] [("A", 437.2963)] 450
    ⟨"A", 437.2963, 1.029, 1.029 * 437.2963, [("A", 1)]⟩ (by with_unfolding_all rfl)).1

/-- C10: with a positive amount and a positive price for the selected
instrument, the produced cost satisfies `0 ≤ cost ≤ amount`: truncation can
never overspend the budget. -/
theorem claim10_cost_within_budget
    (raw : List (String × ℚ)) (counts : List (String × Nat))
    (prices : List (String × ℚ)) (amt : ℚ) (d : BuyDecision)
    (hamt : 0 < amt) (hpr : 0 < d.price)
    (hok : selectPhase raw counts prices amt = Except.ok d) :
    0 ≤ d.cost ∧ d.cost ≤ amt := by
  obtain ⟨cand, rot2, p, hra, hal, hd'⟩ := selectPhase_ok_iff.mp hok
  have hp : d.price = p := by rw [hd']
  have hc : d.cost = sharesOf amt p * p := by rw [hd']
  rw [hp] at hpr
  constructor
  · rw [hc]
    apply mul_nonneg _ hpr.le
    unfold sharesOf
    apply div_nonneg _ (by norm_num)
    have hx : (0 : ℚ) ≤ amt / p * 1000 :=
      mul_nonneg (div_nonneg hamt.le hpr.le) (by norm_num)
    have hz : (0 : ℤ) ≤ ⌊amt / p * 1000⌋ := Int.le_floor.mpr (by exact_mod_cast hx)
    exact_mod_cast hz
  · rw [hc]
    calc sharesOf amt p * p ≤ (amt / p) * p :=
          mul_le_mul_of_nonneg_right (sharesOf_le amt p) hpr.le
      _ = amt := div_mul_cancel₀ amt hpr.ne'

/-- Witness for C10 at the end-to-end scenario: cost 450 spends exactly the
450 budget and is nonnegative. -/
theorem claim10_witness :
    (0 : ℚ) ≤ BuyDecision.cost ⟨"A", 100, 4.5, 450, [("A", 1), ("B", 0), ("C", 0)]⟩ ∧
    BuyDecision.cost ⟨"A", 100, 4.5, 450, [("A", 1), ("B", 0), ("C", 0)]⟩ ≤ 450 := by
  exact claim10_cost_within_budget
    [("A", 0.10), ("B", 0.25), ("C", -0.05)] [("A", 0), ("B", 3), ("C", 1)]
    [("A", 100)] 450 ⟨"A", 100, 4.5, 450, [("A", 1), ("B", 0), ("C", 0)]⟩
    (by norm_num) (show (0 : ℚ) < 100 by norm_num) (by with_unfolding_all rfl)

/-!  Characterisation of the price lookup and the scorer.  -/

theorem mem_priceWindow {hist : List (ℤ × ℚ)} {date : ℤ} {e : ℤ × ℚ} :
    e ∈ priceWindow hist date ↔ e ∈ hist ∧ date - 200 ≤ e.1 ∧ e.1 ≤ date := by
  simp [priceWindow, List.mem_filter]

theorem getLast?_max :
    ∀ (l : List (ℤ × ℚ)), l.Pairwise (fun a b => a.1 < b.1) → ∀ e,
      (l.getLast? = some e ↔ e ∈ l ∧ ∀ x ∈ l, x.1 ≤ e.1)
  | [] => by simp
  | [a] => by
    intro _ e
    simp only [List.getLast?_singleton, List.mem_singleton, Option.some.injEq]
    constructor
    · rintro rfl
      exact ⟨rfl, fun x hx => by rw [hx]⟩
    · rintro ⟨rfl, -⟩
      rfl
  | a :: b :: t => by
    intro hl e
    have hl' : (b :: t).Pairwise (fun a b => a.1 < b.1) := (List.pairwise_cons.mp hl).2
    have ha : ∀ x ∈ b :: t, a.1 < x.1 := (List.pairwise_cons.mp hl).1
    rw [List.getLast?_cons_cons, getLast?_max (b :: t) hl' e]
    constructor
    · rintro ⟨hmem, hmax⟩
      refine ⟨List.mem_cons_of_mem a hmem, ?_⟩
      intro x hx
      rcases List.mem_cons.mp hx with rfl | hx'
      · exact (ha e hmem).le
      · exact hmax x hx'
    · rintro ⟨hmem, hmax⟩
      rcases List.mem_cons.mp hmem with rfl | hmem'
      · exfalso
        have hb := hmax b (List.mem_cons_of_mem _ (List.mem_cons_self b t))
        exact absurd hb (not_le.mpr (ha b (List.mem_cons_self b t)))
      · exact ⟨hmem', fun x hx => hmax x (List.mem_cons_of_mem a hx)⟩

theorem pairwise_key_inj {l : List (ℤ × ℚ)} (hl : l.Pairwise (fun a b => a.1 < b.1)) :
    ∀ x ∈ l, ∀ y ∈ l, x.1 = y.1 → x = y := by
  induction l with
  | nil => simp
  | cons a t ih =>
    obtain ⟨ha, ht⟩ := List.pairwise_cons.mp hl
    intro x hx y hy hxy
    rcases List.mem_cons.mp hx with rfl | hx' <;> rcases List.mem_cons.mp hy with rfl | hy'
    · rfl
    · exact absurd hxy (ne_of_lt (ha y hy'))
    · exact absurd hxy.symm (ne_of_lt (ha x hx'))
    · exact ih ht x hx' y hy' hxy

theorem fetch_price_ok_iff {market : Market} {t : String} {date : ℤ} {p : ℚ}
    (hsorted : (market t).Pairwise (fun a b => a.1 < b.1)) :
    fetch_price market t date = Except.ok p ↔
    ∃ d, (d, p) ∈ market t ∧ date - 200 ≤ d ∧ d ≤ date ∧
      ∀ e ∈ market t, date - 200 ≤ e.1 → e.1 ≤ date → e.1 ≤ d := by
  have hw : (priceWindow (market t) date).Pairwise (fun a b => a.1 < b.1) :=
    List.Pairwise.filter _ hsorted
  unfold fetch_price
  cases hg : (priceWindow (market t) date).getLast? with
  | none =>
    rw [List.getLast?_eq_none_iff] at hg
    constructor
    · intro h
      exact absurd h (by simp)
    · rintro ⟨d, hmem, h1, h2, -⟩
      have hdw : ((d, p) : ℤ × ℚ) ∈ priceWindow (market t) date :=
        mem_priceWindow.mpr ⟨hmem, h1, h2⟩
      rw [hg] at hdw
      exact absurd hdw (List.not_mem_nil _)
  | some e =>
    have he := (getLast?_max _ hw e).mp hg
    have hew := mem_priceWindow.mp he.1
    constructor
    · intro h
      injection h with h'
      subst h'
      refine ⟨e.1, ?_, hew.2.1, hew.2.2, ?_⟩
      · have := hew.1
        rwa [Prod.mk.eta]
      · intro x hx hx1 hx2
        exact he.2 x (mem_priceWindow.mpr ⟨hx, hx1, hx2⟩)
    · rintro ⟨d, hmem, h1, h2, hmax⟩
      have hdw : ((d, p) : ℤ × ℚ) ∈ priceWindow (market t) date :=
        mem_priceWindow.mpr ⟨hmem, h1, h2⟩
      have h_de : d ≤ e.1 := he.2 (d, p) hdw
      have h_ed : e.1 ≤ d := hmax e hew.1 hew.2.1 hew.2.2
      have hde : ((d, p) : ℤ × ℚ).1 = e.1 := le_antisymm h_de h_ed
      have : ((d, p) : ℤ × ℚ) = e := pairwise_key_inj hsorted (d, p) hmem e hew.1 hde
      rw [show p = e.2 from congrArg Prod.snd this]

theorem fetch_price_error_iff {market : Market} {t : String} {date : ℤ} :
    fetch_price market t date = Except.error (Err.priceUnavailable t date) ↔
    ∀ e ∈ market t, ¬(date - 200 ≤ e.1 ∧ e.1 ≤ date) := by
  unfold fetch_price
  cases hg : (priceWindow (market t) date).getLast? with
  | none =>
    rw [List.getLast?_eq_none_iff] at hg
    constructor
    · intro _ e he hcon
      have hdw : e ∈ priceWindow (market t) date :=
        mem_priceWindow.mpr ⟨he, hcon.1, hcon.2⟩
      rw [hg] at hdw
      exact absurd hdw (List.not_mem_nil _)
    · intro _
      rfl
  | some e =>
    constructor
    · intro h
      exact absurd h (by simp)
    · intro hall
      exfalso
      have he : e ∈ priceWindow (market t) date := List.mem_of_getLast?_eq_some hg
      have hm := mem_priceWindow.mp he
      exact hall e hm.1 ⟨hm.2.1, hm.2.2⟩

theorem fetch_price_error_shape {market : Market} {t : String} {date : ℤ} {e : Err}
    (h : fetch_price market t date = Except.error e) : e = Err.priceUnavailable t date := by
  unfold fetch_price at h
  cases hg : (priceWindow (market t) date).getLast? with
  | none =>
    rw [hg] at h
    injection h with h'
    exact h'.symm
  | some x =>
    rw [hg] at h
    exact absurd h (by simp)

theorem scoreOf_ok_iff {market : Market} {t : String} {cd : ℤ} {s : ℚ} :
    scoreOf market t cd = Except.ok s ↔
    ∃ p0 p1 p3 p6, fetch_price market t cd = Except.ok p0 ∧
      fetch_price market t (cd - 30) = Except.ok p1 ∧
      fetch_price market t (cd - 90) = Except.ok p3 ∧
      fetch_price market t (cd - 180) = Except.ok p6 ∧
      s = scoreFormula p0 p1 p3 p6 := by
  unfold scoreOf
  cases h0 : fetch_price market t cd with
  | error e => simp [bind, Except.bind]
  | ok p0 =>
    cases h1 : fetch_price market t (cd - 30) with
    | error e => simp [bind, Except.bind]
    | ok p1 =>
      cases h3 : fetch_price market t (cd - 90) with
      | error e => simp [bind, Except.bind]
      | ok p3 =>
        cases h6 : fetch_price market t (cd - 180) with
        | error e => simp [bind, Except.bind]
        | ok p6 => simp [bind, Except.bind, pure, Except.pure, eq_comm]

theorem scoreOf_error_cases {market : Market} {t : String} {cd : ℤ} {e : Err}
    (h : scoreOf market t cd = Except.error e) :
    ∃ dt ∈ ([cd, cd - 30, cd - 90, cd - 180] : List ℤ),
      fetch_price market t dt = Except.error e := by
  unfold scoreOf at h
  cases h0 : fetch_price market t cd with
  | error e0 =>
    rw [h0] at h
    simp only [bind, Except.bind] at h
    injection h with h'
    exact ⟨cd, by simp, by rw [h0, h']⟩
  | ok p0 =>
    rw [h0] at h
    cases h1 : fetch_price market t (cd - 30) with
    | error e1 =>
      rw [h1] at h
      simp only [bind, Except.bind] at h
      injection h with h'
      exact ⟨cd - 30, by simp, by rw [h1, h']⟩
    | ok p1 =>
      rw [h1] at h
      cases h3 : fetch_price market t (cd - 90) with
      | error e3 =>
        rw [h3] at h
        simp only [bind, Except.bind] at h
        injection h with h'
        exact ⟨cd - 90, by simp, by rw [h3, h']⟩
      | ok p3 =>
        rw [h3] at h
        cases h6 : fetch_price market t (cd - 180) with
        | error e6 =>
          rw [h6] at h
          simp only [bind, Except.bind] at h
          injection h with h'
          exact ⟨cd - 180, by simp, by rw [h6, h']⟩
        | ok p6 =>
          rw [h6] at h
          simp [bind, Except.bind, pure, Except.pure] at h

theorem scoreOf_isOk_iff {market : Market} {t : String} {cd : ℤ} :
    (∃ s, scoreOf market t cd = Except.ok s) ↔
    ∀ dt ∈ ([cd, cd - 30, cd - 90, cd - 180] : List ℤ),
      ∃ p, fetch_price market t dt = Except.ok p := by
  constructor
  · rintro ⟨s, hs⟩
    obtain ⟨p0, p1, p3, p6, h0, h1, h3, h6, -⟩ := scoreOf_ok_iff.mp hs
    intro dt hdt
    fin_cases hdt
    · exact ⟨p0, h0⟩
    · exact ⟨p1, h1⟩
    · exact ⟨p3, h3⟩
    · exact ⟨p6, h6⟩
  · intro hall
    obtain ⟨p0, h0⟩ := hall cd (by simp)
    obtain ⟨p1, h1⟩ := hall (cd - 30) (by simp)
    obtain ⟨p3, h3⟩ := hall (cd - 90) (by simp)
    obtain ⟨p6, h6⟩ := hall (cd - 180) (by simp)
    exact ⟨scoreFormula p0 p1 p3 p6,
      scoreOf_ok_iff.mpr ⟨p0, p1, p3, p6, h0, h1, h3, h6, rfl⟩⟩

/-- C3: every successfully computed momentum score equals
`0.2*r1 + 0.3*r3 + 0.5*r6` with `r1 = p0/p1 - 1`, `r3 = p0/p3 - 1`,
`r6 = p0/p6 - 1` for the prices resolved at the cutoff and at 30, 90 and 180
days before it, and the three weights sum to 1. -/
theorem claim3_score_formula :
    ((0.2 : ℚ) + 0.3 + 0.5 = 1) ∧
    ∀ (market : Market) (t : String) (cd : ℤ) (s : ℚ),
      scoreOf market t cd = Except.ok s →
      ∃ p0 p1 p3 p6, fetch_price market t cd = Except.ok p0 ∧
        fetch_price market t (cd - 30) = Except.ok p1 ∧
        fetch_price market t (cd - 90) = Except.ok p3 ∧
        fetch_price market t (cd - 180) = Except.ok p6 ∧
        s = 0.2 * (p0 / p1 - 1) + 0.3 * (p0 / p3 - 1) + 0.5 * (p0 / p6 - 1) := by
  refine ⟨by norm_num, ?_⟩
  intro market t cd s hs
  obtain ⟨p0, p1, p3, p6, h0, h1, h3, h6, hf⟩ := scoreOf_ok_iff.mp hs
  exact ⟨p0, p1, p3, p6, h0, h1, h3, h6, hf⟩

/-- Witness for C3 on a concrete four-point price history (prices 8, 9, 9.5,
10 at 180, 90, 30 and 0 days before the cutoff). -/
theorem claim3_witness :
    ((0.2 : ℚ) + 0.3 + 0.5 = 1) ∧
    ∃ p0 p1 p3 p6,
      fetch_price (fun _ => [((-180 : ℤ), (8 : ℚ)), (-90, 9), (-30, 9.5), (0, 10)])
          "QQQ" 0 = Except.ok p0 ∧
      fetch_price (fun _ => [((-180 : ℤ), (8 : ℚ)), (-90, 9), (-30, 9.5), (0, 10)])
          "QQQ" (0 - 30) = Except.ok p1 ∧
      fetch_price (fun _ => [((-180 : ℤ), (8 : ℚ)), (-90, 9), (-30, 9.5), (0, 10)])
          "QQQ" (0 - 90) = Except.ok p3 ∧
      fetch_price (fun _ => [((-180 : ℤ), (8 : ℚ)), (-90, 9), (-30, 9.5), (0, 10)])
          "QQQ" (0 - 180) = Except.ok p6 ∧
      scoreFormula 10 9.5 9 8
        = 0.2 * (p0 / p1 - 1) + 0.3 * (p0 / p3 - 1) + 0.5 * (p0 / p6 - 1) := by
  refine ⟨claim3_score_formula.1, ?_⟩
  exact claim3_score_formula.2 _ "QQQ" 0 _ (by with_unfolding_all rfl)

/-- C8: the price lookup resolves to the most recent price on or before the
requested date within the 200-day lookback window, fails with
`PriceUnavailable` exactly when no such price exists, and a scoring failure is
always a propagated `PriceUnavailable` from one of the four lookups — never a
silently substituted default. -/
theorem claim8_price_lookup_semantics :
    (∀ (market : Market) (t : String) (date : ℤ) (p : ℚ),
      (market t).Pairwise (fun a b => a.1 < b.1) →
      (fetch_price market t date = Except.ok p ↔
        ∃ d, (d, p) ∈ market t ∧ date - 200 ≤ d ∧ d ≤ date ∧
          ∀ e ∈ market t, date - 200 ≤ e.1 → e.1 ≤ date → e.1 ≤ d)) ∧
    (∀ (market : Market) (t : String) (date : ℤ),
      fetch_price market t date = Except.error (Err.priceUnavailable t date) ↔
      ∀ e ∈ market t, ¬(date - 200 ≤ e.1 ∧ e.1 ≤ date)) ∧
    (∀ (market : Market) (t : String) (cd : ℤ) (e : Err),
      scoreOf market t cd = Except.error e →
      ∃ dt ∈ ([cd, cd - 30, cd - 90, cd - 180] : List ℤ),
        fetch_price market t dt = Except.error e ∧ e = Err.priceUnavailable t dt) ∧
    (∀ (market : Market) (t : String) (cd : ℤ),
      (∃ s, scoreOf market t cd = Except.ok s) ↔
      ∀ dt ∈ ([cd, cd - 30, cd - 90, cd - 180] : List ℤ),
        ∃ p, fetch_price market t dt = Except.ok p) := by
  refine ⟨fun market t date p h => fetch_price_ok_iff h,
    fun market t date => fetch_price_error_iff, ?_,
    fun market t cd => scoreOf_isOk_iff⟩
  intro market t cd e he
  obtain ⟨dt, hdt, hf⟩ := scoreOf_error_cases he
  exact ⟨dt, hdt, hf, fetch_price_error_shape hf⟩

/-- Witness for C8: on the concrete four-point history the lookup at the
cutoff resolves to the latest price 10, and far in the past it fails with
`PriceUnavailable`. -/
theorem claim8_witness :
    fetch_price (fun _ => [((-180 : ℤ), (8 : ℚ)), (-90, 9), (-30, 9.5), (0, 10)])
        "QQQ" 0 = Except.ok 10 ∧
    fetch_price (fun _ => [((-180 : ℤ), (8 : ℚ)), (-90, 9), (-30, 9.5), (0, 10)])
        "QQQ" (-400) = Except.error (Err.priceUnavailable "QQQ" (-400)) := by
  constructor
  · exact (claim8_price_lookup_semantics.1 _ "QQQ" 0 10 (by decide)).mpr
      ⟨0, by norm_num, by norm_num, by norm_num, fun e he h1 h2 => h2⟩
  · exact (claim8_price_lookup_semantics.2.1 _ "QQQ" (-400)).mpr (by
      intro e he
      fin_cases he <;> norm_num)

/-!  Error inversion for the selection stage.  -/

theorem pickCand_error_iff {raw : List (String × ℚ)} {rot : List (String × Nat)} {e : Err} :
    pickCand raw rot = Except.error e ↔ raw = [] ∧ e = Err.noCandidates := by
  unfold pickCand
  cases hf : (sortedScores raw).find? (eligible rot) with
  | some x =>
    constructor
    · intro h
      exact absurd h (by simp)
    · rintro ⟨rfl, -⟩
      rw [show sortedScores ([] : List (String × ℚ)) = [] from rfl] at hf
      exact absurd hf (by simp)
  | none =>
    cases hs : sortedScores raw with
    | nil =>
      rw [sortedScores_eq_nil_iff] at hs
      simp [hs, eq_comm]
    | cons x rest =>
      constructor
      · intro h
        exact absurd h (by simp)
      · rintro ⟨rfl, -⟩
        rw [show sortedScores ([] : List (String × ℚ)) = [] from rfl] at hs
        exact absurd hs (by simp)

theorem rotAfter_error_iff {raw : List (String × ℚ)} {counts : List (String × Nat)} {e : Err} :
    rotAfter raw counts = Except.error e ↔
    (pickCand raw counts = Except.error e ∨
      ∃ cand rot, pickCand raw counts = Except.ok (cand, rot) ∧
        alookup cand rot = none ∧ e = Err.keyError cand) := by
  unfold rotAfter bumpCand
  cases h : pickCand raw counts with
  | error e' =>
    simp only [bind, Except.bind]
    constructor
    · intro hx
      injection hx with hx'
      exact Or.inl (by rw [hx'])
    · rintro (hx | ⟨cand, rot, hx, -, -⟩)
      · injection hx with hx'
        rw [hx']
      · exact absurd hx (by simp)
  | ok cr =>
    obtain ⟨c1, r1⟩ := cr
    cases hl : alookup c1 r1 with
    | none =>
      simp only [bind, Except.bind, hl]
      constructor
      · intro hx
        injection hx with hx'
        exact Or.inr ⟨c1, r1, rfl, hl, hx'.symm⟩
      · rintro (hx | ⟨cand, rot, hx, hal, he⟩)
        · exact absurd hx (by simp)
        · injection hx with hx'
          obtain ⟨rfl, rfl⟩ : c1 = cand ∧ r1 = rot :=
            ⟨congrArg Prod.fst hx', congrArg Prod.snd hx'⟩
          rw [he]
    | some c =>
      simp only [bind, Except.bind, hl, pure, Except.pure]
      constructor
      · intro hx
        exact absurd hx (by simp)
      · rintro (hx | ⟨cand, rot, hx, hal, -⟩)
        · exact absurd hx (by simp)
        · injection hx with hx'
          obtain ⟨rfl, rfl⟩ : c1 = cand ∧ r1 = rot :=
            ⟨congrArg Prod.fst hx', congrArg Prod.snd hx'⟩
          rw [hl] at hal
          exact absurd hal (by simp)

theorem selectPhase_error_iff {raw : List (String × ℚ)} {counts : List (String × Nat)}
    {prices : List (String × ℚ)} {amt : ℚ} {e : Err} :
    selectPhase raw counts prices amt = Except.error e ↔
    (rotAfter raw counts = Except.error e ∨
      ∃ cand rot2, rotAfter raw counts = Except.ok (cand, rot2) ∧
        alookup cand prices = none ∧ e = Err.keyError cand) := by
  unfold selectPhase dictGetQ
  cases h : rotAfter raw counts with
  | error e' =>
    simp only [bind, Except.bind]
    constructor
    · intro hx
      injection hx with hx'
      exact Or.inl (by rw [hx'])
    · rintro (hx | ⟨cand, rot2, hx, -, -⟩)
      · injection hx with hx'
        rw [hx']
      · exact absurd hx (by simp)
  | ok cr =>
    obtain ⟨cand1, rot1⟩ := cr
    cases hp : alookup cand1 prices with
    | none =>
      simp only [bind, Except.bind, hp]
      constructor
      · intro hx
        injection hx with hx'
        exact Or.inr ⟨cand1, rot1, rfl, hp, hx'.symm⟩
      · rintro (hx | ⟨cand, rot2, hx, hal, he⟩)
        · exact absurd hx (by simp)
        · injection hx with hx'
          obtain ⟨rfl, rfl⟩ : cand1 = cand ∧ rot1 = rot2 :=
            ⟨congrArg Prod.fst hx', congrArg Prod.snd hx'⟩
          rw [he]
    | some p =>
      simp only [bind, Except.bind, hp, pure, Except.pure]
      constructor
      · intro hx
        exact absurd hx (by simp)
      · rintro (hx | ⟨cand, rot2, hx, hal, -⟩)
        · exact absurd hx (by simp)
        · injection hx with hx'
          obtain ⟨rfl, rfl⟩ : cand1 = cand ∧ rot1 = rot2 :=
            ⟨congrArg Prod.fst hx', congrArg Prod.snd hx'⟩
          rw [hp] at hal
          exact absurd hal (by simp)

/-- C5 counterexample: it is not the case that a non-positive amount makes the
selection fail — at amount 0 (which is ≤ 0) the selection still returns a buy
decision; the code performs no amount validation at all. -/
theorem claim5_counterexample :
    ¬ (∀ (raw : List (String × ℚ)) (counts : List (String × Nat))
        (prices : List (String × ℚ)) (amt : ℚ), amt ≤ 0 →
        ∃ e, selectPhase raw counts prices amt = Except.error e) := by
  intro h
  obtain ⟨e, he⟩ := h [("A", 1)] [("A", 0)] [("A", 100)] 0 le_rfl
  rw [show selectPhase [("A", 1)] [("A", 0)] [("A", 100)] 0
      = Except.ok ⟨"A", 100, 0, 0, [("A", 1)]⟩ from by with_unfolding_all rfl] at he
  exact absurd he (by simp)

/-- C5 as amended: the selection fails with `NoCandidates` exactly when the
score map is empty, and the amount is never validated — whether the selection
succeeds is independent of the amount (so a non-positive amount does not make
it fail). -/
theorem claim5_amended_failure_conditions :
    (∀ (raw : List (String × ℚ)) (counts : List (String × Nat))
      (prices : List (String × ℚ)) (amt : ℚ),
      selectPhase raw counts prices amt = Except.error Err.noCandidates ↔ raw = []) ∧
    (∀ (raw : List (String × ℚ)) (counts : List (String × Nat))
      (prices : List (String × ℚ)) (amt amt' : ℚ),
      (selectPhase raw counts prices amt).isOk
        = (selectPhase raw counts prices amt').isOk) := by
  constructor
  · intro raw counts prices amt
    constructor
    · intro h
      rcases selectPhase_error_iff.mp h with hra | ⟨cand, rot2, hra, hal, he⟩
      · rcases rotAfter_error_iff.mp hra with hpc | ⟨cand, rot, hpc, hl, he⟩
        · exact (pickCand_error_iff.mp hpc).1
        · exact absurd he (by simp)
      · exact absurd he (by simp)
    · rintro rfl
      rfl
  · intro raw counts prices amt amt'
    unfold selectPhase dictGetQ
    cases h : rotAfter raw counts with
    | error e => simp [bind, Except.bind]
    | ok cr =>
      obtain ⟨cand, rot2⟩ := cr
      cases hp : alookup cand prices with
      | none => simp [bind, Except.bind, hp]
      | some p => simp [bind, Except.bind, hp, pure, Except.pure, Except.isOk, Except.toBool]

/-- Witness for C5 (amended) at concrete inputs: the empty score map yields
`NoCandidates`, and success at amount 450 coincides with success at amount 0. -/
theorem claim5_witness :
    selectPhase [] [("A", 0)] [("A", 100)] 450 = Except.error Err.noCandidates ∧
    (selectPhase [("A", 1)] [("A", 0)] [("A", 100)] 450).isOk
      = (selectPhase [("A", 1)] [("A", 0)] [("A", 100)] 0).isOk := by
  exact ⟨(claim5_amended_failure_conditions.1 [] [("A", 0)] [("A", 100)] 450).mpr rfl,
    claim5_amended_failure_conditions.2 [("A", 1)] [("A", 0)] [("A", 100)] 450 0⟩

/-!  Treatment of rotation maps with missing entries (C6).  -/

/-- The rotation map with every candidate missing from `counts` added
explicitly with count 0 — the map the spec claims `select` behaves on. -/
def padZero (raw : List (String × ℚ)) (counts : List (String × Nat)) :
    List (String × Nat) :=
  counts ++ ((raw.map Prod.fst).filter (fun k => (alookup k counts).isNone)).map
    (fun k => (k, 0))

theorem alookup_append_of_some {α : Type} {k : String} {v : α}
    {l1 l2 : List (String × α)} (h : alookup k l1 = some v) :
    alookup k (l1 ++ l2) = some v := by
  induction l1 with
  | nil => exact absurd h (by simp [alookup])
  | cons kv rest ih =>
    rw [alookup_cons] at h
    by_cases hk : kv.1 = k
    · rw [if_pos hk] at h
      simpa [alookup, hk] using h
    · rw [if_neg hk] at h
      simpa [alookup, hk] using ih h

theorem alookup_append_of_none {α : Type} {k : String}
    {l1 l2 : List (String × α)} (h : alookup k l1 = none) :
    alookup k (l1 ++ l2) = alookup k l2 := by
  induction l1 with
  | nil => rfl
  | cons kv rest ih =>
    rw [alookup_cons] at h
    by_cases hk : kv.1 = k
    · rw [if_pos hk] at h
      exact absurd h (by simp)
    · rw [if_neg hk] at h
      simpa [alookup, hk] using ih h

theorem alookup_keys_map_zero {l : List String} {k : String} (h : k ∈ l) :
    alookup k (l.map fun k' => (k', (0 : ℕ))) = some 0 := by
  induction l with
  | nil => exact absurd h (List.not_mem_nil k)
  | cons a t ih =>
    rcases List.mem_cons.mp h with rfl | h'
    · simp [alookup]
    · by_cases ha : a = k
      · simp [alookup, ha]
      · simpa [alookup, ha] using ih h'

theorem alookup_padZero {raw : List (String × ℚ)} {counts : List (String × Nat)}
    {k : String} (hk : k ∈ raw.map Prod.fst) :
    alookup k (padZero raw counts) = some ((alookup k counts).getD 0) := by
  unfold padZero
  cases h : alookup k counts with
  | some v =>
    rw [alookup_append_of_some h]
    simp
  | none =>
    rw [alookup_append_of_none h]
    have hmem : k ∈ (raw.map Prod.fst).filter (fun k' => (alookup k' counts).isNone) :=
      List.mem_filter.mpr ⟨hk, by simp [h]⟩
    rw [alookup_keys_map_zero hmem]
    simp

theorem eligible_padZero (raw : List (String × ℚ)) (counts : List (String × Nat)) :
    ∀ x ∈ sortedScores raw, eligible (padZero raw counts) x = eligible counts x := by
  intro x hx
  have hk : x.1 ∈ raw.map Prod.fst :=
    List.mem_map_of_mem Prod.fst (mem_sortedScores.mp hx)
  unfold eligible
  rw [alookup_padZero hk]
  simp

theorem find?_congr {α : Type} {p q : α → Bool} {l : List α}
    (h : ∀ x ∈ l, p x = q x) : l.find? p = l.find? q := by
  induction l with
  | nil => rfl
  | cons a t ih =>
    rw [List.find?_cons, List.find?_cons, h a (List.mem_cons_self a t),
      ih fun x hx => h x (List.mem_cons_of_mem a hx)]

theorem pickCand_fst_padZero (raw : List (String × ℚ)) (counts : List (String × Nat)) :
    (pickCand raw (padZero raw counts)).map Prod.fst
      = (pickCand raw counts).map Prod.fst := by
  unfold pickCand
  rw [find?_congr (eligible_padZero raw counts)]
  cases (sortedScores raw).find? (eligible counts) with
  | some x => rfl
  | none => cases sortedScores raw <;> rfl

/-- C6 counterexample: with candidate A carrying score 1 and an empty rotation
map — so the chosen buy candidate has no rotation entry — the selection raises
a KeyError instead of succeeding as if the entry were 0. -/
theorem claim6_counterexample :
    selectPhase [("A", 1)] [] [("A", 100)] 450 = Except.error (Err.keyError "A") ∧
    ¬ ∃ d, selectPhase [("A", 1)] [] [("A", 100)] 450 = Except.ok d := by
  refine ⟨by with_unfolding_all rfl, ?_⟩
  rintro ⟨d, hd⟩
  rw [show selectPhase [("A", 1)] [] [("A", 100)] 450
      = Except.error (Err.keyError "A") from by with_unfolding_all rfl] at hd
  exact absurd hd (by simp)

/-- C6 as amended: missing rotation entries are treated as 0 while choosing
the buy candidate (the choice coincides with the zero-filled map), and the
selection succeeds when the chosen candidate has a rotation entry and a price;
but when the chosen buy candidate itself has no rotation entry the selection
fails with a KeyError instead of succeeding. -/
theorem claim6_amended_missing_entries
    (raw : List (String × ℚ)) (counts : List (String × Nat))
    (prices : List (String × ℚ)) (amt : ℚ) :
    ((pickCand raw (padZero raw counts)).map Prod.fst
      = (pickCand raw counts).map Prod.fst) ∧
    (∀ cand rot, pickCand raw counts = Except.ok (cand, rot) →
      ((alookup cand counts = none →
          selectPhase raw counts prices amt = Except.error (Err.keyError cand)) ∧
        (∀ c p, alookup cand counts = some c → alookup cand prices = some p →
          ∃ d, selectPhase raw counts prices amt = Except.ok d ∧ d.buyTicker = cand))) := by
  refine ⟨pickCand_fst_padZero raw counts, ?_⟩
  intro cand rot hpc
  have hcases := pickCand_ok_cases hpc
  constructor
  · intro hnone
    have hrl : alookup cand rot = none := by
      rcases hcases with ⟨x, -, -, rfl⟩ | ⟨-, x, rest, -, -, rfl⟩
      · exact hnone
      · rw [alookup_map_zero, hnone]
        rfl
    apply selectPhase_error_iff.mpr
    left
    apply rotAfter_error_iff.mpr
    right
    exact ⟨cand, rot, hpc, hrl, rfl⟩
  · intro c p hsome hp
    have hrl : ∃ c', alookup cand rot = some c' := by
      rcases hcases with ⟨x, -, -, rfl⟩ | ⟨-, x, rest, -, -, rfl⟩
      · exact ⟨c, hsome⟩
      · exact ⟨0, by rw [alookup_map_zero, hsome]; rfl⟩
    obtain ⟨c', hc'⟩ := hrl
    refine ⟨⟨cand, p, sharesOf amt p, sharesOf amt p * p,
      zeroOthers (setKey rot cand (c' + 1)) cand⟩, ?_, rfl⟩
    apply selectPhase_ok_iff.mpr
    exact ⟨cand, _, p, rotAfter_ok_iff.mpr ⟨rot, c', hpc, hc', rfl⟩, hp, rfl⟩

/-- Witness for C6 (amended): with rotation map {B:2} lacking the chosen
candidate A, the selection fails with KeyError A; with {A:0} present it
succeeds and buys A. -/
theorem claim6_witness :
    selectPhase [("A", 1)] [("B", 2)] [("A", 100)] 450
      = Except.error (Err.keyError "A") ∧
    ∃ d, selectPhase [("A", 1)] [("A", 2)] [("A", 100)] 450 = Except.ok d ∧
      d.buyTicker = "A" := by
  constructor
  · exact ((claim6_amended_missing_entries [("A", 1)] [("B", 2)] [("A", 100)] 450).2
      "A" [("B", 2)] (by with_unfolding_all rfl)).1 (by with_unfolding_all rfl)
  · exact ((claim6_amended_missing_entries [("A", 1)] [("A", 2)] [("A", 100)] 450).2
      "A" [("A", 2)] (by with_unfolding_all rfl)).2 2 100
      (by with_unfolding_all rfl) (by with_unfolding_all rfl)

/-!  A heap model of the rotation-dict mutation (C9).  Python dicts are
mutable objects; to state that `run_dca` leaves the caller's `counts` dict
untouched we model a store of dict objects addressed by references and replay
source lines 81-93 with the aliasing made explicit: line 81 allocates a fresh
dict holding a copy of the caller's counts, and every subsequent write goes
through the fresh reference.  -/

/-- A store of Python dict objects, addressed by index. -/
abbrev Heap : Type := List (List (String × Nat))

/-- Dereference a dict. -/
def heapRead (h : Heap) (r : ℕ) : List (String × Nat) := h.getD r []

/-- Overwrite the dict object at a reference. -/
def heapWrite (h : Heap) (r : ℕ) (d : List (String × Nat)) : Heap := h.set r d

/-- Source lines 91-93 (`rot[cand] += 1` then zero the others), performed as
in-place updates through reference `r`. -/
def bumpCandMut (h : Heap) (r : ℕ) (cand : String) : Except Err Heap :=
  match alookup cand (heapRead h r) with
  | none => Except.error (Err.keyError cand)
  | some c =>
    let h1 := heapWrite h r (setKey (heapRead h r) cand (c + 1))
    Except.ok (heapWrite h1 r (zeroOthers (heapRead h1 r) cand))

/-- Source lines 81-93 with explicit references: `rot = counts.copy()`
allocates a fresh dict at the end of the store; the candidate scan reads
through the fresh reference and all mutation happens through it. -/
def rotAfterMut (h : Heap) (countsRef : ℕ) (raw : List (String × ℚ)) :
    Except Err (Heap × ℕ × String) :=
  let rotRef := h.length
  let h1 := h ++ [heapRead h countsRef]
  match (sortedScores raw).find? (eligible (heapRead h1 rotRef)) with
  | some x =>
    match bumpCandMut h1 rotRef x.1 with
    | Except.error e => Except.error e
    | Except.ok h2 => Except.ok (h2, rotRef, x.1)
  | none =>
    match sortedScores raw with
    | [] => Except.error Err.noCandidates
    | x :: _ =>
      let h2 := heapWrite h1 rotRef ((heapRead h1 rotRef).map (fun kv => (kv.1, 0)))
      match bumpCandMut h2 rotRef x.1 with
      | Except.error e => Except.error e
      | Except.ok h3 => Except.ok (h3, rotRef, x.1)

theorem heapRead_append {h : Heap} {d : List (String × Nat)} {r : ℕ}
    (hr : r < h.length) : heapRead (h ++ [d]) r = heapRead h r := by
  unfold heapRead
  rw [List.getD_eq_getElem?_getD, List.getD_eq_getElem?_getD,
    List.getElem?_append, if_pos hr]

theorem heapRead_append_len (h : Heap) (d : List (String × Nat)) :
    heapRead (h ++ [d]) h.length = d := by
  unfold heapRead
  rw [List.getD_eq_getElem?_getD, List.getElem?_concat_length]
  rfl

theorem heapRead_write_self {h : Heap} {r : ℕ} {d : List (String × Nat)}
    (hr : r < h.length) : heapRead (heapWrite h r d) r = d := by
  unfold heapRead heapWrite
  rw [List.getD_eq_getElem?_getD, List.getElem?_set]
  simp [hr]

theorem heapRead_write_ne {h : Heap} {r r' : ℕ} {d : List (String × Nat)}
    (hne : r ≠ r') : heapRead (heapWrite h r d) r' = heapRead h r' := by
  unfold heapRead heapWrite
  rw [List.getD_eq_getElem?_getD, List.getD_eq_getElem?_getD,
    List.getElem?_set_ne hne]

theorem bumpCandMut_none {h : Heap} {r : ℕ} {cand : String}
    (hal : alookup cand (heapRead h r) = none) :
    bumpCandMut h r cand = Except.error (Err.keyError cand) := by
  unfold bumpCandMut
  rw [hal]

theorem bumpCandMut_some {h : Heap} {r : ℕ} {cand : String} {c : ℕ}
    (hr : r < h.length) (hal : alookup cand (heapRead h r) = some c) :
    bumpCandMut h r cand
      = Except.ok (heapWrite (heapWrite h r (setKey (heapRead h r) cand (c + 1))) r
          (zeroOthers (setKey (heapRead h r) cand (c + 1)) cand)) := by
  unfold bumpCandMut
  rw [hal]
  show Except.ok (heapWrite (heapWrite h r (setKey (heapRead h r) cand (c + 1))) r
      (zeroOthers (heapRead (heapWrite h r (setKey (heapRead h r) cand (c + 1))) r) cand)) = _
  rw [heapRead_write_self hr]

theorem rotAfterMut_found {h : Heap} {countsRef : ℕ} {raw : List (String × ℚ)}
    {x : String × ℚ}
    (hf : (sortedScores raw).find? (eligible (heapRead h countsRef)) = some x) :
    rotAfterMut h countsRef raw
      = match bumpCandMut (h ++ [heapRead h countsRef]) h.length x.1 with
        | Except.error e => Except.error e
        | Except.ok h2 => Except.ok (h2, h.length, x.1) := by
  simp only [rotAfterMut]
  rw [heapRead_append_len h (heapRead h countsRef), hf]

theorem rotAfterMut_exhaust {h : Heap} {countsRef : ℕ} {raw : List (String × ℚ)}
    {x : String × ℚ} {rest : List (String × ℚ)}
    (hf : (sortedScores raw).find? (eligible (heapRead h countsRef)) = none)
    (hs : sortedScores raw = x :: rest) :
    rotAfterMut h countsRef raw
      = match bumpCandMut
            (heapWrite (h ++ [heapRead h countsRef]) h.length
              ((heapRead h countsRef).map (fun kv => (kv.1, 0)))) h.length x.1 with
        | Except.error e => Except.error e
        | Except.ok h3 => Except.ok (h3, h.length, x.1) := by
  simp only [rotAfterMut]
  rw [heapRead_append_len h (heapRead h countsRef), hf, hs]

/-- C9: the selection stage has no side effect on the caller's rotation dict:
after a successful run the dict at the caller's reference is unchanged, the
returned rotation dict lives at a fresh, distinct reference, and its contents
are exactly what the pure `rotAfter` computes from the caller's counts. -/
theorem claim9_no_side_effects
    (h : Heap) (countsRef : ℕ) (raw : List (String × ℚ))
    (h' : Heap) (rref : ℕ) (cand : String)
    (href : countsRef < h.length)
    (hok : rotAfterMut h countsRef raw = Except.ok (h', rref, cand)) :
    heapRead h' countsRef = heapRead h countsRef ∧ rref ≠ countsRef ∧
    rotAfter raw (heapRead h countsRef) = Except.ok (cand, heapRead h' rref) := by
  have hne : h.length ≠ countsRef := ne_of_gt href
  have hlen1 : h.length < (h ++ [heapRead h countsRef]).length := by simp
  have hreads := heapRead_append_len h (heapRead h countsRef)
  cases hf : (sortedScores raw).find? (eligible (heapRead h countsRef)) with
  | some x =>
    rw [rotAfterMut_found hf] at hok
    cases hal : alookup x.1 (heapRead h countsRef) with
    | none =>
      rw [bumpCandMut_none (by rw [hreads]; exact hal)] at hok
      exact absurd hok (by simp)
    | some c =>
      rw [bumpCandMut_some hlen1 (by rw [hreads]; exact hal)] at hok
      simp only [hreads] at hok
      injection hok with hok'
      have h1 := congrArg Prod.fst hok'
      have h2 := congrArg (fun z : Heap × ℕ × String => z.2.1) hok'
      have h3 := congrArg (fun z : Heap × ℕ × String => z.2.2) hok'
      simp only [] at h1 h2 h3
      refine ⟨?_, ?_, ?_⟩
      · rw [← h1, heapRead_write_ne hne, heapRead_write_ne hne, heapRead_append href]
      · rw [← h2]
        exact hne
      · rw [← h3, ← h2, ← h1]
        rw [heapRead_write_self (by simp [heapWrite])]
        apply rotAfter_ok_iff.mpr
        refine ⟨heapRead h countsRef, c, ?_, hal, rfl⟩
        unfold pickCand
        rw [hf]
  | none =>
    cases hs : sortedScores raw with
    | nil =>
      rw [show rotAfterMut h countsRef raw = Except.error Err.noCandidates from by
        simp only [rotAfterMut]
        rw [heapRead_append_len h (heapRead h countsRef), hf, hs]] at hok
      exact absurd hok (by simp)
    | cons x rest =>
      rw [rotAfterMut_exhaust hf hs] at hok
      have hzlen : h.length
          < (heapWrite (h ++ [heapRead h countsRef]) h.length
              ((heapRead h countsRef).map (fun kv => (kv.1, 0)))).length := by
        simp [heapWrite]
      have hzread : heapRead (heapWrite (h ++ [heapRead h countsRef]) h.length
            ((heapRead h countsRef).map (fun kv => (kv.1, 0)))) h.length
          = (heapRead h countsRef).map (fun kv => (kv.1, 0)) :=
        heapRead_write_self hlen1
      cases hal : alookup x.1 ((heapRead h countsRef).map fun kv => (kv.1, 0)) with
      | none =>
        rw [bumpCandMut_none (by rw [hzread]; exact hal)] at hok
        exact absurd hok (by simp)
      | some c =>
        rw [bumpCandMut_some hzlen (by rw [hzread]; exact hal)] at hok
        simp only [hzread] at hok
        injection hok with hok'
        have h1 := congrArg Prod.fst hok'
        have h2 := congrArg (fun z : Heap × ℕ × String => z.2.1) hok'
        have h3 := congrArg (fun z : Heap × ℕ × String => z.2.2) hok'
        simp only [] at h1 h2 h3
        refine ⟨?_, ?_, ?_⟩
        · rw [← h1, heapRead_write_ne hne, heapRead_write_ne hne,
            heapRead_write_ne hne, heapRead_append href]
        · rw [← h2]
          exact hne
        · rw [← h3, ← h2, ← h1]
          rw [heapRead_write_self (by simp [heapWrite])]
          apply rotAfter_ok_iff.mpr
          refine ⟨(heapRead h countsRef).map fun kv => (kv.1, 0), c, ?_, hal, rfl⟩
          unfold pickCand
          rw [hf, hs]

/-- Witness for C9 on a one-dict store: running the selection over the store
`[{A:0}]` through reference 0 leaves slot 0 untouched, returns the fresh
reference 1, and the fresh dict agrees with the pure `rotAfter`. -/
theorem claim9_witness :
    heapRead [[("A", 0)], [("A", 1)]] 0 = heapRead [[("A", 0)]] 0 ∧ (1 : ℕ) ≠ 0 ∧
    rotAfter [("A", (1 : ℚ))] (heapRead [[("A", 0)]] 0)
      = Except.ok ("A", heapRead [[("A", 0)], [("A", 1)]] 1) := by
  exact claim9_no_side_effects [[("A", 0)]] 0 [("A", (1 : ℚ))]
    [[("A", 0)], [("A", 1)]] 1 "A" (by norm_num) (by with_unfolding_all rfl)

end SmartDCA
